import Mathlib

/-!
Shallow embedding of `src/extract_shas.py`:

```python
  with open('tree_client.json', 'r') as f:
      data = json.load(f)
  ui_files = {}
  for item in data['tree']:
      path = item['path']
      if path.startswith('src/components/ui/') or path == 'src/lib/utils.ts':
          ui_files[path] = item['sha']
  print(json.dumps(ui_files, indent=2))
```

The parsed JSON document is modelled by `JVal` (numbers restricted to
integers; floating point is outside the scope of the claims).  Python
dictionaries are modelled as association lists with unique keys in
insertion order; `dictInsert` realises Python's `d[k] = v` (overwrite in
place keeps the original key position, a fresh key is appended).  Runtime
errors of the script (`KeyError`, `TypeError`, `AttributeError`) are
modelled by `PyErr` and propagation by `Except`.
-/

inductive JVal where
  | str : String → JVal
  | num : Int → JVal
  | bool : Bool → JVal
  | null : JVal
  | arr : List JVal → JVal
  | obj : List (String × JVal) → JVal

inductive PyErr where
  | keyError : PyErr
  | typeError : PyErr
  | attrError : PyErr
deriving DecidableEq

/-- First-match lookup in an association list (Python dicts built by
`json.load` have unique keys, so first match is the dict lookup). -/
def lookupA : List (String × JVal) → String → Option JVal
  | [], _ => none
  | kv :: rest, q => if kv.1 = q then some kv.2 else lookupA rest q

/-- Python subscription `v[k]` with a string key on a parsed JSON value:
dictionaries look the key up (`KeyError` when absent), every other parsed
value raises `TypeError`. -/
def getItem (v : JVal) (k : String) : Except PyErr JVal :=
  match v with
  | .obj kvs =>
    match lookupA kvs k with
    | some x => .ok x
    | none => .error .keyError
  | _ => .error .typeError

/-- Python attribute access `path.startswith`: only strings have it, any
other value raises `AttributeError`. -/
def asStr : JVal → Except PyErr String
  | .str s => .ok s
  | _ => .error .attrError

/-- Python iteration `for item in v`: lists yield their elements, dicts
their keys, strings their one-character substrings; other parsed JSON
values raise `TypeError`. -/
def pyIter : JVal → Except PyErr (List JVal)
  | .arr xs => .ok xs
  | .obj kvs => .ok (kvs.map (fun kv => JVal.str kv.1))
  | .str s => .ok (s.data.map (fun c => JVal.str (String.mk [c])))
  | _ => .error .typeError

/-- Python `str.startswith` over the underlying character lists. -/
def charsStartWith : List Char → List Char → Bool
  | [], _ => true
  | _ :: _, [] => false
  | a :: as, b :: bs => a == b && charsStartWith as bs

/-- Python `s.startswith(p)`. -/
def pyStartsWith (s p : String) : Bool := charsStartWith p.data s.data

/-- The inclusion predicate of line 9:
`path.startswith('src/components/ui/') or path == 'src/lib/utils.ts'`. -/
def includePred (path : String) : Bool :=
  pyStartsWith path "src/components/ui/" || path == "src/lib/utils.ts"

/-- Python `d[k] = v` on an insertion-ordered dictionary: an existing key
keeps its position and gets the new value, a fresh key is appended. -/
def dictInsert (d : List (String × JVal)) (k : String) (v : JVal) :
    List (String × JVal) :=
  if d.any (fun kv => kv.1 == k) then
    d.map (fun kv => if kv.1 = k then (k, v) else kv)
  else
    d ++ [(k, v)]

/-- One iteration of the loop body (lines 8-10): fetch `item['path']`,
require it to be a string (for `.startswith`), and on a predicate match
fetch `item['sha']` and insert. -/
def processItem (acc : List (String × JVal)) (item : JVal) :
    Except PyErr (List (String × JVal)) :=
  match getItem item "path" with
  | .error e => .error e
  | .ok pv =>
    match asStr pv with
    | .error e => .error e
    | .ok path =>
      if includePred path then
        match getItem item "sha" with
        | .error e => .error e
        | .ok sha => .ok (dictInsert acc path sha)
      else .ok acc

/-- The `for` loop (lines 7-10): left-to-right over the iterated items,
aborting at the first error. -/
def runLoop (acc : List (String × JVal)) :
    List JVal → Except PyErr (List (String × JVal))
  | [] => .ok acc
  | item :: rest =>
    match processItem acc item with
    | .ok acc2 => runLoop acc2 rest
    | .error e => .error e

/-- Lines 6-10 of the script: `data['tree']`, iterate it and run the
filter loop starting from the empty dictionary `ui_files = {}`. -/
def extractShas (data : JVal) : Except PyErr (List (String × JVal)) :=
  match getItem data "tree" with
  | .error e => .error e
  | .ok tree =>
    match pyIter tree with
    | .error e => .error e
    | .ok items => runLoop [] items

/-! Serialization: `json.dumps(ui_files, indent=2)` with the default
`ensure_ascii=True`.  Characters outside the printable ASCII range
(and the JSON escapes) are written as `\uXXXX`, astral characters as a
surrogate pair. -/

def hex4 (n : Nat) : String :=
  String.mk [Nat.digitChar (n / 4096 % 16), Nat.digitChar (n / 256 % 16),
    Nat.digitChar (n / 16 % 16), Nat.digitChar (n % 16)]

def escapeChar (c : Char) : String :=
  if c = '"' then "\\\""
  else if c = '\\' then "\\\\"
  else if c = '\n' then "\\n"
  else if c = '\r' then "\\r"
  else if c = '\t' then "\\t"
  else if c = '\x08' then "\\b"
  else if c = '\x0c' then "\\f"
  else if c.toNat < 0x20 then "\\u" ++ hex4 c.toNat
  else if c.toNat < 0x7f then String.mk [c]
  else if c.toNat ≤ 0xffff then "\\u" ++ hex4 c.toNat
  else
    "\\u" ++ hex4 (0xd800 + (c.toNat - 0x10000) / 1024) ++
    "\\u" ++ hex4 (0xdc00 + (c.toNat - 0x10000) % 1024)

def escapeJson (s : String) : String := String.join (s.data.map escapeChar)

def pad : Nat → String
  | 0 => ""
  | n + 1 => " " ++ pad n

mutual
/-- Rendering of `json.dumps(v, indent=2)` at indentation column `ind`. -/
def dumpVal (ind : Nat) : JVal → String
  | .str s => "\"" ++ escapeJson s ++ "\""
  | .num n => toString n
  | .bool true => "true"
  | .bool false => "false"
  | .null => "null"
  | .arr xs => dumpArrAt ind xs
  | .obj kvs => dumpObjAt ind kvs

def dumpArrAt (ind : Nat) : List JVal → String
  | [] => "[]"
  | x :: xs =>
    "[\n" ++ pad (ind + 2) ++ dumpVal (ind + 2) x ++ dumpArrRest ind xs ++
    "\n" ++ pad ind ++ "]"

def dumpArrRest (ind : Nat) : List JVal → String
  | [] => ""
  | x :: xs => ",\n" ++ pad (ind + 2) ++ dumpVal (ind + 2) x ++ dumpArrRest ind xs

def dumpObjAt (ind : Nat) : List (String × JVal) → String
  | [] => "\x7b\x7d"
  | kv :: kvs =>
    "\x7b\n" ++ pad (ind + 2) ++ "\"" ++ escapeJson kv.1 ++ "\": " ++
    dumpVal (ind + 2) kv.2 ++ dumpObjRest ind kvs ++ "\n" ++ pad ind ++ "\x7d"

def dumpObjRest (ind : Nat) : List (String × JVal) → String
  | [] => ""
  | kv :: kvs =>
    ",\n" ++ pad (ind + 2) ++ "\"" ++ escapeJson kv.1 ++ "\": " ++
    dumpVal (ind + 2) kv.2 ++ dumpObjRest ind kvs
end

/-- The whole script as a function from the parsed document to the text
printed on stdout (line 12), or the uncaught error that aborts it. -/
def runScript (data : JVal) : Except PyErr String :=
  match extractShas data with
  | .ok m => .ok (dumpObjAt 0 m)
  | .error e => .error e

/-! ### Pure view of the loop

For reasoning, each entry is projected to its `(path, sha)` pair and the
loop to a pure fold over those pairs; the bridge lemmas below relate the
two provided the entries are well-formed enough for the script not to
raise. -/

/-- The `path` field of an entry, defaulting to `""` when absent or not a
string (the script would raise in those cases). -/
def pathOf (item : JVal) : String :=
  match getItem item "path" with
  | .ok (.str p) => p
  | _ => ""

/-- The `sha` field of an entry, defaulting to `null` when absent (the
script only reads it for entries matching the predicate). -/
def shaOf (item : JVal) : JVal :=
  match getItem item "sha" with
  | .ok s => s
  | _ => .null

def pairOf (item : JVal) : String × JVal := (pathOf item, shaOf item)

/-- The entry has a string `path` field. -/
def hasStrPath (item : JVal) : Bool :=
  match getItem item "path" with
  | .ok (.str _) => true
  | _ => false

/-- The entry has a `sha` field. -/
def hasSha (item : JVal) : Bool :=
  match getItem item "sha" with
  | .ok _ => true
  | _ => false

/-- Well-formed enough for the loop body not to raise on this entry:
a string `path`, and a `sha` field whenever the path matches. -/
def okEntry (item : JVal) : Bool :=
  hasStrPath item && (!includePred (pathOf item) || hasSha item)

/-- The shape §4.1 of the spec demands of every entry: string `path` and
a `sha` field. -/
def validEntry (item : JVal) : Bool :=
  hasStrPath item && hasSha item

/-- Pure counterpart of one loop iteration on a `(path, sha)` pair. -/
def stepPair (acc : List (String × JVal)) (pr : String × JVal) :
    List (String × JVal) :=
  if includePred pr.1 then dictInsert acc pr.1 pr.2 else acc

/-- Pure counterpart of the loop over projected pairs. -/
def filterPairsFrom (acc : List (String × JVal)) :
    List (String × JVal) → List (String × JVal)
  | [] => acc
  | pr :: rest => filterPairsFrom (stepPair acc pr) rest

def filterPairs (ps : List (String × JVal)) : List (String × JVal) :=
  filterPairsFrom [] ps

/-- First-encounter deduplication, the order specification for the output
keys: keys already seen are dropped, new keys are appended. -/
def firstKeysAux (ks : List String) : List String → List String
  | [] => ks
  | k :: rest => firstKeysAux (if ks.any (fun q => q == k) then ks else ks ++ [k]) rest

def isArr : JVal → Bool
  | .arr _ => true
  | _ => false

/-- Non-sequence values that Python nevertheless iterates producing no
elements: the empty string and the empty object. -/
def emptyIterLike : JVal → Bool
  | .str s => s.data.isEmpty
  | .obj kvs => kvs.isEmpty
  | _ => false

/-! ### Helper lemmas about `lookupA` and `dictInsert` -/

theorem lookupA_none_of_not_any {d : List (String × JVal)} {k : String}
    (h : d.any (fun kv => kv.1 == k) = false) : lookupA d k = none := by
  induction d with
  | nil => rfl
  | cons kv rest ih =>
    simp only [List.any_cons, Bool.or_eq_false_iff] at h
    have hk : ¬ kv.1 = k := by simpa using h.1
    simp [lookupA, hk, ih h.2]

theorem lookupA_append_single (d : List (String × JVal)) (k q : String) (v : JVal) :
    lookupA (d ++ [(k, v)]) q =
      match lookupA d q with
      | some x => some x
      | none => if k = q then some v else none := by
  induction d with
  | nil => simp [lookupA]
  | cons kv rest ih =>
    by_cases hkv : kv.1 = q
    · simp [lookupA, hkv]
    · simp [lookupA, hkv, ih]

theorem lookupA_map_overwrite (d : List (String × JVal)) (k q : String) (v : JVal) :
    lookupA (d.map (fun kv => if kv.1 = k then (k, v) else kv)) q =
      if q = k then (if d.any (fun kv => kv.1 == k) then some v else none)
      else lookupA d q := by
  induction d with
  | nil => by_cases hqk : q = k <;> simp [lookupA, hqk]
  | cons kv rest ih =>
    by_cases hk : kv.1 = k
    · have hbk : (kv.1 == k) = true := by simpa using hk
      by_cases hqk : q = k
      · subst hqk; simp [lookupA, hk, hbk]
      · have hkq : ¬ k = q := fun h => hqk h.symm
        have hq : ¬ kv.1 = q := fun h => hqk ((h.symm.trans hk))
        simp [lookupA, hk, hkq, hq, hqk, ih]
    · have hbk : (kv.1 == k) = false := by simpa using hk
      by_cases hq : kv.1 = q
      · have hqk : ¬ q = k := fun h => hk (hq.trans h)
        simp [lookupA, hk, hq, hqk]
      · by_cases hqk : q = k
        · subst hqk
          simp [lookupA, hk, hq, ih]
          rw [hbk, Bool.false_or]
        · simp [lookupA, hk, hq, hqk, ih]

theorem lookupA_dictInsert (d : List (String × JVal)) (k q : String) (v : JVal) :
    lookupA (dictInsert d k v) q = if k = q then some v else lookupA d q := by
  unfold dictInsert
  cases hany : d.any (fun kv => kv.1 == k) with
  | true =>
    rw [if_pos rfl, lookupA_map_overwrite]
    by_cases hqk : q = k
    · subst hqk; simp [hany]
    · have hkq : ¬ k = q := fun h => hqk h.symm
      simp [hqk, hkq]
  | false =>
    rw [if_neg (by simp), lookupA_append_single]
    by_cases hkq : k = q
    · subst hkq
      rw [lookupA_none_of_not_any hany]
    · cases h : lookupA d q <;> simp [hkq]

theorem keys_dictInsert (d : List (String × JVal)) (k : String) (v : JVal) :
    (dictInsert d k v).map Prod.fst =
      if d.any (fun kv => kv.1 == k) then d.map Prod.fst
      else d.map Prod.fst ++ [k] := by
  unfold dictInsert
  cases hany : d.any (fun kv => kv.1 == k) with
  | true =>
    rw [if_pos rfl, if_pos rfl, List.map_map]
    apply List.map_congr_left
    intro kv _
    by_cases hk : kv.1 = k <;> simp [hk]
  | false =>
    rw [if_neg (by simp), if_neg (by simp)]
    simp

theorem mem_dictInsert {kv : String × JVal} {d : List (String × JVal)}
    {k : String} {v : JVal} (h : kv ∈ dictInsert d k v) :
    kv.1 = k ∨ kv ∈ d := by
  unfold dictInsert at h
  cases hany : d.any (fun kv => kv.1 == k) with
  | true =>
    rw [if_pos (by simp [hany])] at h
    rcases List.mem_map.mp h with ⟨kv0, hkv0, heq⟩
    by_cases hk : kv0.1 = k
    · left; rw [← heq]; simp [hk]
    · right; rw [← heq]; simpa [hk] using hkv0
  | false =>
    rw [if_neg (by simp [hany])] at h
    rcases List.mem_append.mp h with h1 | h1
    · right; exact h1
    · left; simp at h1; rw [h1]

theorem not_mem_keys_of_not_any {d : List (String × JVal)} {k : String}
    (h : d.any (fun kv => kv.1 == k) = false) : k ∉ d.map Prod.fst := by
  intro hmem
  rcases List.mem_map.mp hmem with ⟨kv, hkv, heq⟩
  have : d.any (fun kv => kv.1 == k) = true :=
    List.any_eq_true.mpr ⟨kv, hkv, by simpa using heq⟩
  rw [h] at this
  exact Bool.false_ne_true this

theorem nodup_keys_dictInsert {d : List (String × JVal)} {k : String} {v : JVal}
    (h : (d.map Prod.fst).Nodup) : ((dictInsert d k v).map Prod.fst).Nodup := by
  rw [keys_dictInsert]
  cases hany : d.any (fun kv => kv.1 == k) with
  | true => simpa using h
  | false =>
    rw [if_neg (by simp)]
    refine List.Nodup.append h (List.nodup_singleton k) ?_
    intro a ha hb
    simp at hb
    subst hb
    exact not_mem_keys_of_not_any hany ha

/-! ### Elimination lemmas for the loop body -/

theorem pathOf_eq {item : JVal} {p : String}
    (h : getItem item "path" = .ok (.str p)) : pathOf item = p := by
  simp [pathOf, h]

theorem shaOf_eq {item : JVal} {s : JVal}
    (h : getItem item "sha" = .ok s) : shaOf item = s := by
  simp [shaOf, h]

/-- Successful execution of the loop body, dissected. -/
theorem processItem_ok {acc acc2 : List (String × JVal)} {item : JVal}
    (h : processItem acc item = .ok acc2) :
    ∃ p, getItem item "path" = .ok (.str p) ∧
      ((includePred p = true ∧
          ∃ s, getItem item "sha" = .ok s ∧ acc2 = dictInsert acc p s) ∨
        (includePred p = false ∧ acc2 = acc)) := by
  unfold processItem at h
  cases hp : getItem item "path" with
  | error e => rw [hp] at h; exact absurd h (by simp)
  | ok pv =>
    rw [hp] at h
    cases pv with
    | str p =>
      refine ⟨p, rfl, ?_⟩
      simp only [asStr] at h
      cases hincl : includePred p with
      | true =>
        rw [hincl] at h
        simp only [if_pos rfl] at h
        cases hs : getItem item "sha" with
        | error e => rw [hs] at h; exact absurd h (by simp)
        | ok s =>
          rw [hs] at h
          left
          exact ⟨rfl, s, rfl, by injection h with h2; exact h2.symm⟩
      | false =>
        rw [hincl] at h
        simp only [Bool.false_eq_true, if_false] at h
        right
        exact ⟨rfl, by injection h with h2; exact h2.symm⟩
    | num n => simp [asStr] at h
    | bool b => simp [asStr] at h
    | null => simp [asStr] at h
    | arr xs => simp [asStr] at h
    | obj kvs => simp [asStr] at h

/-- An entry whose string path matches requires `sha` and performs the
insertion. -/
theorem processItem_matched {acc : List (String × JVal)} {item : JVal}
    {p : String} {s : JVal}
    (hp : getItem item "path" = .ok (.str p))
    (hincl : includePred p = true)
    (hs : getItem item "sha" = .ok s) :
    processItem acc item = .ok (dictInsert acc p s) := by
  unfold processItem
  rw [hp]
  simp [asStr, hincl, hs]

/-- An entry whose string path does not match is skipped, its `sha` never
read. -/
theorem processItem_unmatched {acc : List (String × JVal)} {item : JVal}
    {p : String}
    (hp : getItem item "path" = .ok (.str p))
    (hincl : includePred p = false) :
    processItem acc item = .ok acc := by
  unfold processItem
  rw [hp]
  simp [asStr, hincl]

/-! ### Invariants of the loop -/

/-- Soundness invariant: every key ever present in the accumulator
satisfies the predicate, and the loop preserves this. -/
theorem runLoop_keys_pred :
    ∀ (items : List JVal) (acc m : List (String × JVal)),
      runLoop acc items = .ok m →
      (∀ kv ∈ acc, includePred kv.1 = true) →
      ∀ kv ∈ m, includePred kv.1 = true := by
  intro items
  induction items with
  | nil =>
    intro acc m h hinv
    unfold runLoop at h
    injection h with h
    rw [← h]
    exact hinv
  | cons item rest ih =>
    intro acc m h hinv
    unfold runLoop at h
    cases hpi : processItem acc item with
    | error e => rw [hpi] at h; exact absurd h (by simp)
    | ok acc2 =>
      rw [hpi] at h
      refine ih acc2 m h ?_
      rcases processItem_ok hpi with ⟨p, hp, hcase⟩
      rcases hcase with ⟨hincl, s, hs, hacc2⟩ | ⟨hincl, hacc2⟩
      · subst hacc2
        intro kv hkv
        rcases mem_dictInsert hkv with hk | hk
        · rw [hk]; exact hincl
        · exact hinv kv hk
      · subst hacc2; exact hinv

/-- Last-write-wins characterization of the final dictionary: for a
matching key, its value is determined by the left fold recording the last
`sha` seen at that path. -/
theorem runLoop_lookup :
    ∀ (items : List JVal) (acc m : List (String × JVal)) (q : String),
      runLoop acc items = .ok m →
      includePred q = true →
      lookupA m q =
        items.foldl (fun r it => if pathOf it == q then some (shaOf it) else r)
          (lookupA acc q) := by
  intro items
  induction items with
  | nil =>
    intro acc m q h _
    unfold runLoop at h
    injection h with h
    rw [← h, List.foldl_nil]
  | cons item rest ih =>
    intro acc m q h hq
    unfold runLoop at h
    cases hpi : processItem acc item with
    | error e => rw [hpi] at h; exact absurd h (by simp)
    | ok acc2 =>
      rw [hpi] at h
      rw [List.foldl_cons]
      rw [ih acc2 m q h hq]
      congr 1
      rcases processItem_ok hpi with ⟨p, hp, hcase⟩
      have hpath : pathOf item = p := pathOf_eq hp
      rcases hcase with ⟨hincl, s, hs, hacc2⟩ | ⟨hincl, hacc2⟩
      · have hsha : shaOf item = s := shaOf_eq hs
        subst hacc2
        rw [lookupA_dictInsert, hpath, hsha]
        by_cases hpq : p = q
        · simp [hpq]
        · simp [hpq]
      · subst hacc2
        have hpq : ¬ p = q := by
          intro hpq
          rw [hpq] at hincl
          rw [hincl] at hq
          exact Bool.false_ne_true hq
        rw [hpath]
        simp [hpq]

theorem any_keys_map (d : List (String × JVal)) (p : String) :
    ((d.map Prod.fst).any fun q => q == p) = d.any fun kv => kv.1 == p := by
  induction d with
  | nil => rfl
  | cons kv r ihh => simp [ihh]

theorem firstKeysAux_cons (ks : List String) (k : String) (rest : List String) :
    firstKeysAux ks (k :: rest) =
      firstKeysAux (if ks.any (fun q => q == k) then ks else ks ++ [k]) rest := rfl

/-- Key order invariant: the final key list is the accumulator's keys
followed by the unseen matching paths in first-encounter order. -/
theorem runLoop_keys_order :
    ∀ (items : List JVal) (acc m : List (String × JVal)),
      runLoop acc items = .ok m →
      m.map Prod.fst =
        firstKeysAux (acc.map Prod.fst)
          ((items.filter (fun it => includePred (pathOf it))).map pathOf) := by
  intro items
  induction items with
  | nil =>
    intro acc m h
    unfold runLoop at h
    injection h with h
    rw [← h]
    rfl
  | cons item rest ih =>
    intro acc m h
    unfold runLoop at h
    cases hpi : processItem acc item with
    | error e => rw [hpi] at h; exact absurd h (by simp)
    | ok acc2 =>
      rw [hpi] at h
      rcases processItem_ok hpi with ⟨p, hp, hcase⟩
      have hpath : pathOf item = p := pathOf_eq hp
      rcases hcase with ⟨hincl, s, hs, hacc2⟩ | ⟨hincl, hacc2⟩
      · subst hacc2
        have hany := any_keys_map acc p
        rw [ih _ _ h, keys_dictInsert,
          List.filter_cons_of_pos (by rw [hpath]; exact hincl), List.map_cons,
          hpath, firstKeysAux_cons, hany]
      · subst hacc2
        rw [List.filter_cons_of_neg (by rw [hpath]; simp [hincl]), ih _ _ h]

/-- The loop keeps the keys of the dictionary without duplicates. -/
theorem runLoop_nodup_keys :
    ∀ (items : List JVal) (acc m : List (String × JVal)),
      runLoop acc items = .ok m →
      (acc.map Prod.fst).Nodup →
      (m.map Prod.fst).Nodup := by
  intro items
  induction items with
  | nil =>
    intro acc m h hnd
    unfold runLoop at h
    injection h with h
    rw [← h]
    exact hnd
  | cons item rest ih =>
    intro acc m h hnd
    unfold runLoop at h
    cases hpi : processItem acc item with
    | error e => rw [hpi] at h; exact absurd h (by simp)
    | ok acc2 =>
      rw [hpi] at h
      refine ih acc2 m h ?_
      rcases processItem_ok hpi with ⟨p, hp, hcase⟩
      rcases hcase with ⟨hincl, s, hs, hacc2⟩ | ⟨hincl, hacc2⟩
      · subst hacc2; exact nodup_keys_dictInsert hnd
      · subst hacc2; exact hnd

/-! ### The last-write fold versus last occurrence -/

/-- The left fold recording the last matching `sha` computes the `sha` of
the last occurrence of the path, falling back to the initial value when
the path never occurs. -/
theorem foldl_lastSha (q : String) :
    ∀ (items : List JVal) (r : Option JVal),
      items.foldl (fun r it => if pathOf it == q then some (shaOf it) else r) r =
        (((items.filter (fun it => pathOf it == q)).getLast?).map shaOf).or r := by
  intro items
  induction items with
  | nil => intro r; simp
  | cons it rest ih =>
    intro r
    rw [List.foldl_cons, ih]
    cases hit : pathOf it == q with
    | true =>
      rw [if_pos rfl]
      have hfc : List.filter (fun it => pathOf it == q) (it :: rest) =
          it :: List.filter (fun it => pathOf it == q) rest := by
        simp [List.filter_cons, hit]
      rw [hfc]
      cases hrest : rest.filter (fun it => pathOf it == q) with
      | nil => simp
      | cons x xs =>
        rw [List.getLast?_cons_cons]
        have hsome : (x :: xs).getLast?.isSome := by
          rw [List.getLast?_isSome]
          simp
        rcases Option.isSome_iff_exists.mp hsome with ⟨y, hy⟩
        simp [hy]
    | false =>
      rw [if_neg (by simp)]
      have hfc : List.filter (fun it => pathOf it == q) (it :: rest) =
          List.filter (fun it => pathOf it == q) rest := by
        simp [List.filter_cons, hit]
      rw [hfc]

/-- If the path occurs, the fold yields a value. -/
theorem foldl_lastSha_isSome {q : String} {items : List JVal} {it : JVal}
    (hmem : it ∈ items) (hq : pathOf it == q) :
    (items.foldl (fun r it => if pathOf it == q then some (shaOf it) else r)
        (none : Option JVal)).isSome := by
  rw [foldl_lastSha]
  have hfmem : it ∈ items.filter (fun it => pathOf it == q) :=
    List.mem_filter.mpr ⟨hmem, hq⟩
  have hne : items.filter (fun it => pathOf it == q) ≠ [] :=
    List.ne_nil_of_mem hfmem
  have hsome : (items.filter (fun it => pathOf it == q)).getLast?.isSome :=
    List.getLast?_isSome.mpr hne
  rcases Option.isSome_iff_exists.mp hsome with ⟨y, hy⟩
  simp [hy]

/-- If the path occurs exactly once, the fold yields that occurrence's
`sha`. -/
theorem foldl_lastSha_single {q : String} {items : List JVal} {it0 : JVal}
    (hfilter : items.filter (fun it => pathOf it == q) = [it0]) :
    items.foldl (fun r it => if pathOf it == q then some (shaOf it) else r)
        (none : Option JVal) = some (shaOf it0) := by
  rw [foldl_lastSha, hfilter]
  rfl

/-- A key with a value is among the keys. -/
theorem mem_keys_of_lookupA {m : List (String × JVal)} {q : String} {v : JVal}
    (h : lookupA m q = some v) : q ∈ m.map Prod.fst := by
  induction m with
  | nil => simp [lookupA] at h
  | cons kv rest ih =>
    by_cases hk : kv.1 = q
    · simp [hk]
    · rw [lookupA, if_neg hk] at h
      simp [ih h]

/-! ### Bridge to the pure fold -/

theorem hasStrPath_elim {item : JVal} (h : hasStrPath item = true) :
    getItem item "path" = .ok (.str (pathOf item)) := by
  unfold hasStrPath at h
  unfold pathOf
  cases hp : getItem item "path" with
  | error e => rw [hp] at h; exact absurd h (by simp)
  | ok pv =>
    rw [hp] at h
    cases pv <;> simp_all

theorem hasSha_elim {item : JVal} (h : hasSha item = true) :
    getItem item "sha" = .ok (shaOf item) := by
  unfold hasSha at h
  unfold shaOf
  cases hs : getItem item "sha" with
  | error e => rw [hs] at h; exact absurd h (by simp)
  | ok s => rfl

theorem okEntry_of_validEntry {item : JVal} (h : validEntry item = true) :
    okEntry item = true := by
  unfold validEntry at h
  unfold okEntry
  rcases Bool.and_eq_true _ _ |>.mp h with ⟨h1, h2⟩
  rw [h1, h2]
  simp

/-- On entries well-formed enough not to raise, the loop is exactly the
pure fold over the projected `(path, sha)` pairs. -/
theorem runLoop_eq_filterPairsFrom :
    ∀ (items : List JVal) (acc : List (String × JVal)),
      (∀ it ∈ items, okEntry it = true) →
      runLoop acc items = .ok (filterPairsFrom acc (items.map pairOf)) := by
  intro items
  induction items with
  | nil => intro acc _; rfl
  | cons item rest ih =>
    intro acc hok
    have hitem : okEntry item = true := hok item (by simp)
    have hrest : ∀ it ∈ rest, okEntry it = true := fun it hit => hok it (by simp [hit])
    unfold okEntry at hitem
    rcases Bool.and_eq_true _ _ |>.mp hitem with ⟨h1, h2⟩
    have hp : getItem item "path" = .ok (.str (pathOf item)) := hasStrPath_elim h1
    unfold runLoop
    rw [List.map_cons]
    cases hincl : includePred (pathOf item) with
    | true =>
      have hsha : hasSha item = true := by
        rw [hincl] at h2
        simpa using h2
      have hs : getItem item "sha" = .ok (shaOf item) := hasSha_elim hsha
      rw [processItem_matched hp hincl hs]
      have hstep : stepPair acc (pairOf item) = dictInsert acc (pathOf item) (shaOf item) := by
        unfold stepPair pairOf
        rw [if_pos hincl]
      rw [show filterPairsFrom acc (pairOf item :: rest.map pairOf) =
          filterPairsFrom (stepPair acc (pairOf item)) (rest.map pairOf) from rfl,
        hstep]
      exact ih _ hrest
    | false =>
      rw [processItem_unmatched hp hincl]
      have hstep : stepPair acc (pairOf item) = acc := by
        unfold stepPair pairOf
        rw [if_neg (by simp [hincl])]
      rw [show filterPairsFrom acc (pairOf item :: rest.map pairOf) =
          filterPairsFrom (stepPair acc (pairOf item)) (rest.map pairOf) from rfl,
        hstep]
      exact ih _ hrest

/-! ### Unpacking the top level -/
/-! ### Unpacking the top level -/

theorem extractShas_of_tree_arr {data : JVal} {items : List JVal}
    (ht : getItem data "tree" = .ok (.arr items)) :
    extractShas data = runLoop [] items := by
  unfold extractShas
  rw [ht]
  rfl

theorem extractShas_of_tree_absent {data : JVal} {e : PyErr}
    (ht : getItem data "tree" = .error e) :
    extractShas data = .error e := by
  unfold extractShas
  rw [ht]

/-- A successful run dissected into its three stages. -/
theorem extractShas_ok_elim {data : JVal} {m : List (String × JVal)}
    (h : extractShas data = .ok m) :
    ∃ tree items, getItem data "tree" = .ok tree ∧ pyIter tree = .ok items ∧
      runLoop [] items = .ok m := by
  unfold extractShas at h
  cases ht : getItem data "tree" with
  | error e => rw [ht] at h; exact absurd h (by simp)
  | ok tree =>
    rw [ht] at h
    have h2 : (match pyIter tree with
        | .error e => (.error e : Except PyErr (List (String × JVal)))
        | .ok items => runLoop [] items) = .ok m := h
    cases hi : pyIter tree with
    | error e => rw [hi] at h2; exact absurd h2 (by simp)
    | ok items =>
      rw [hi] at h2
      exact ⟨tree, items, rfl, hi, h2⟩

/-! ### Example documents (the examples of spec §8 and variants) -/

def exTree : List JVal :=
  [JVal.obj [("path", JVal.str "src/components/ui/button.tsx"), ("sha", JVal.str "abc123")],
   JVal.obj [("path", JVal.str "src/lib/utils.ts"), ("sha", JVal.str "def456")],
   JVal.obj [("path", JVal.str "src/pages/index.tsx"), ("sha", JVal.str "zzz999")]]

def exampleDoc : JVal := JVal.obj [("tree", JVal.arr exTree)]

def exOut : List (String × JVal) :=
  [("src/components/ui/button.tsx", JVal.str "abc123"),
   ("src/lib/utils.ts", JVal.str "def456")]

def dupTree : List JVal :=
  [JVal.obj [("path", JVal.str "src/lib/utils.ts"), ("sha", JVal.str "aaa111")],
   JVal.obj [("path", JVal.str "src/lib/utils.ts"), ("sha", JVal.str "bbb222")]]

def dupDoc : JVal := JVal.obj [("tree", JVal.arr dupTree)]

/-! ### The claims -/

/-- C1: soundness of the filter — whenever the script succeeds with output
mapping `m`, every key of `m` satisfies the inclusion predicate: it starts
with the literal `src/components/ui/` or is exactly `src/lib/utils.ts`;
no other path ever appears as an output key. -/
theorem claim1_filter_soundness (data : JVal) (m : List (String × JVal))
    (kv : String × JVal)
    (hrun : extractShas data = .ok m) (hmem : kv ∈ m) :
    pyStartsWith kv.1 "src/components/ui/" = true ∨ kv.1 = "src/lib/utils.ts" := by
  rcases extractShas_ok_elim hrun with ⟨tree, items, ht, hi, hloop⟩
  have hpred : includePred kv.1 = true :=
    runLoop_keys_pred items [] m hloop (by intro kv h; simp at h) kv hmem
  unfold includePred at hpred
  rcases Bool.or_eq_true _ _ |>.mp hpred with h | h
  · exact Or.inl h
  · exact Or.inr (by simpa using h)

theorem claim1_witness :
    pyStartsWith "src/components/ui/button.tsx" "src/components/ui/" = true ∨
      "src/components/ui/button.tsx" = "src/lib/utils.ts" :=
  claim1_filter_soundness exampleDoc exOut
    ("src/components/ui/button.tsx", JVal.str "abc123") rfl (by simp [exOut])

/-- C2: completeness of the filter — under a successful run with
`tree` a sequence `items`, every entry of `items` whose string path
matches the predicate and which carries a `sha` appears as a key of the
output; if its path occurs exactly once in `items`, the output maps that
path to exactly that occurrence's `sha`. -/
theorem claim2_filter_completeness (data : JVal) (items : List JVal)
    (m : List (String × JVal)) (item : JVal) (p : String) (s : JVal)
    (hrun : extractShas data = .ok m)
    (ht : getItem data "tree" = .ok (.arr items))
    (hmem : item ∈ items)
    (hp : getItem item "path" = .ok (.str p))
    (hincl : includePred p = true)
    (hs : getItem item "sha" = .ok s) :
    p ∈ m.map Prod.fst ∧
      (items.filter (fun it => pathOf it == p) = [item] →
        lookupA m p = some s) := by
  rw [extractShas_of_tree_arr ht] at hrun
  have hlook : lookupA m p =
      items.foldl (fun r it => if pathOf it == p then some (shaOf it) else r)
        (none : Option JVal) :=
    runLoop_lookup items [] m p hrun hincl
  have hpath : pathOf item = p := pathOf_eq hp
  constructor
  · have hsome := foldl_lastSha_isSome hmem (q := p) (by simp [hpath])
    rw [← hlook] at hsome
    rcases Option.isSome_iff_exists.mp hsome with ⟨v, hv⟩
    exact mem_keys_of_lookupA hv
  · intro hfilter
    rw [hlook, foldl_lastSha_single hfilter, shaOf_eq hs]

theorem claim2_witness :
    "src/lib/utils.ts" ∈ exOut.map Prod.fst ∧
      (exTree.filter (fun it => pathOf it == "src/lib/utils.ts") =
          [JVal.obj [("path", JVal.str "src/lib/utils.ts"), ("sha", JVal.str "def456")]] →
        lookupA exOut "src/lib/utils.ts" = some (JVal.str "def456")) :=
  claim2_filter_completeness exampleDoc exTree exOut
    (JVal.obj [("path", JVal.str "src/lib/utils.ts"), ("sha", JVal.str "def456")])
    "src/lib/utils.ts" (JVal.str "def456")
    rfl rfl (by simp [exTree]) rfl rfl rfl

/-- C3: duplicate-path resolution — under a successful run, when a
matching path `p` occurs more than once among the entries, the output
contains the key `p` exactly once and maps it to the `sha` of the last
occurrence. -/
theorem claim3_duplicate_last_wins (data : JVal) (items : List JVal)
    (m : List (String × JVal)) (p : String) (lastIt : JVal)
    (hrun : extractShas data = .ok m)
    (ht : getItem data "tree" = .ok (.arr items))
    (hincl : includePred p = true)
    (_hdup : 2 ≤ (items.filter (fun it => pathOf it == p)).length)
    (hlast : (items.filter (fun it => pathOf it == p)).getLast? = some lastIt) :
    (m.map Prod.fst).count p = 1 ∧ lookupA m p = some (shaOf lastIt) := by
  rw [extractShas_of_tree_arr ht] at hrun
  have hlook : lookupA m p =
      items.foldl (fun r it => if pathOf it == p then some (shaOf it) else r)
        (none : Option JVal) :=
    runLoop_lookup items [] m p hrun hincl
  have hval : lookupA m p = some (shaOf lastIt) := by
    rw [hlook, foldl_lastSha, hlast]
    rfl
  refine ⟨?_, hval⟩
  have hnd : (m.map Prod.fst).Nodup :=
    runLoop_nodup_keys items [] m hrun (by simp)
  exact List.count_eq_one_of_mem hnd (mem_keys_of_lookupA hval)

theorem claim3_witness :
    (([("src/lib/utils.ts", JVal.str "bbb222")] : List (String × JVal)).map
        Prod.fst).count "src/lib/utils.ts" = 1 ∧
      lookupA [("src/lib/utils.ts", JVal.str "bbb222")] "src/lib/utils.ts" =
        some (shaOf (JVal.obj [("path", JVal.str "src/lib/utils.ts"),
          ("sha", JVal.str "bbb222")])) :=
  claim3_duplicate_last_wins dupDoc dupTree
    [("src/lib/utils.ts", JVal.str "bbb222")] "src/lib/utils.ts"
    (JVal.obj [("path", JVal.str "src/lib/utils.ts"), ("sha", JVal.str "bbb222")])
    rfl rfl rfl (by decide) rfl

/-- C5: order preservation — under a successful run with `tree` a
sequence `items`, the output key order is the first-encounter order of
the matching paths of `items` (later duplicates only overwrite the
value, never move the key). -/
theorem claim5_order_preservation (data : JVal) (items : List JVal)
    (m : List (String × JVal))
    (hrun : extractShas data = .ok m)
    (ht : getItem data "tree" = .ok (.arr items)) :
    m.map Prod.fst =
      firstKeysAux []
        ((items.filter (fun it => includePred (pathOf it))).map pathOf) := by
  rw [extractShas_of_tree_arr ht] at hrun
  exact runLoop_keys_order items [] m hrun

theorem claim5_witness :
    exOut.map Prod.fst =
      firstKeysAux []
        ((exTree.filter (fun it => includePred (pathOf it))).map pathOf) :=
  claim5_order_preservation exampleDoc exTree exOut rfl rfl

/-- C6: all-or-nothing — for every input document the script either
succeeds, printing the serialization of the complete filtered mapping,
or aborts with an error and prints nothing (there is no partial
output). -/
theorem claim6_all_or_nothing (data : JVal) :
    (∃ m, extractShas data = .ok m ∧ runScript data = .ok (dumpObjAt 0 m)) ∨
    (∃ e, extractShas data = .error e ∧ runScript data = .error e) := by
  cases h : extractShas data with
  | ok m => exact Or.inl ⟨m, rfl, by unfold runScript; rw [h]⟩
  | error e => exact Or.inr ⟨e, rfl, by unfold runScript; rw [h]⟩

/-- C7: noninterference — two documents whose `tree` sequences are valid
(string `path`, present `sha`) and agree on the ordered list of
`(path, sha)` pairs produce identical output; extra fields on entries or
on the top-level document have no effect. -/
theorem claim7_noninterference (d1 d2 : JVal) (items1 items2 : List JVal)
    (h1 : getItem d1 "tree" = .ok (.arr items1))
    (h2 : getItem d2 "tree" = .ok (.arr items2))
    (hv1 : ∀ it ∈ items1, validEntry it = true)
    (hv2 : ∀ it ∈ items2, validEntry it = true)
    (hpairs : items1.map pairOf = items2.map pairOf) :
    runScript d1 = runScript d2 := by
  have hr1 : extractShas d1 = .ok (filterPairsFrom [] (items1.map pairOf)) := by
    rw [extractShas_of_tree_arr h1]
    exact runLoop_eq_filterPairsFrom items1 []
      (fun it hit => okEntry_of_validEntry (hv1 it hit))
  have hr2 : extractShas d2 = .ok (filterPairsFrom [] (items2.map pairOf)) := by
    rw [extractShas_of_tree_arr h2]
    exact runLoop_eq_filterPairsFrom items2 []
      (fun it hit => okEntry_of_validEntry (hv2 it hit))
  unfold runScript
  rw [hr1, hr2, hpairs]

theorem claim7_witness :
    runScript (JVal.obj [("tree", JVal.arr
        [JVal.obj [("path", JVal.str "src/lib/utils.ts"),
          ("sha", JVal.str "def456")]]),
      ("truncated", JVal.bool false)]) =
    runScript (JVal.obj [("tree", JVal.arr
        [JVal.obj [("path", JVal.str "src/lib/utils.ts"),
          ("sha", JVal.str "def456"), ("mode", JVal.str "100644")]])]) :=
  claim7_noninterference _ _
    [JVal.obj [("path", JVal.str "src/lib/utils.ts"), ("sha", JVal.str "def456")]]
    [JVal.obj [("path", JVal.str "src/lib/utils.ts"),
      ("sha", JVal.str "def456"), ("mode", JVal.str "100644")]]
    rfl rfl
    (by intro it hit; simp at hit; subst hit; rfl)
    (by intro it hit; simp at hit; subst hit; rfl)
    rfl

/-- C8: empty-input boundary — when the `tree` field is an empty
sequence, the script succeeds and prints exactly the two characters of
the empty JSON object. -/
theorem claim8_empty_tree (data : JVal)
    (ht : getItem data "tree" = .ok (.arr [])) :
    runScript data = .ok "\x7b\x7d" := by
  unfold runScript
  rw [extractShas_of_tree_arr ht]
  rfl

theorem claim8_witness :
    runScript (JVal.obj [("tree", JVal.arr [])]) = .ok "\x7b\x7d" :=
  claim8_empty_tree (JVal.obj [("tree", JVal.arr [])]) rfl

/-- C9: determinism — the script is a function of the parsed input
document alone, so two runs on the same document print byte-identical
text. -/
theorem claim9_deterministic (data : JVal) (s1 s2 : String)
    (hrun1 : runScript data = .ok s1) (hrun2 : runScript data = .ok s2) :
    s1 = s2 := by
  rw [hrun1] at hrun2
  injection hrun2

theorem claim9_witness : "\x7b\x7d" = "\x7b\x7d" :=
  claim9_deterministic (JVal.obj [("tree", JVal.arr [])]) "\x7b\x7d" "\x7b\x7d"
    rfl rfl

/-- C10: the `sha` field is demanded only after the predicate matches —
an entry whose string path does not match is skipped by the loop without
touching `item['sha']`: it raises nothing and leaves the result exactly
what it would be without the entry, whether or not a `sha` field is
present. -/
theorem claim10_sha_only_for_matched (acc : List (String × JVal))
    (rest : List JVal) (item : JVal) (p : String)
    (hp : getItem item "path" = .ok (.str p))
    (hincl : includePred p = false) :
    runLoop acc (item :: rest) = runLoop acc rest := by
  unfold runLoop
  rw [processItem_unmatched hp hincl]
  cases rest <;> rfl

theorem claim10_witness :
    runLoop [] [JVal.obj [("path", JVal.str "src/pages/index.tsx")]] =
      runLoop [] [] :=
  claim10_sha_only_for_matched [] []
    (JVal.obj [("path", JVal.str "src/pages/index.tsx")])
    "src/pages/index.tsx" rfl rfl

/-- C4 counterexample: a document whose `tree` field is present but is
the empty string — not a sequence of entries — on which the script does
NOT fail: it iterates zero characters and succeeds with the empty
mapping. -/
theorem claim4_counterexample :
    getItem (JVal.obj [("tree", JVal.str "")]) "tree" = .ok (JVal.str "") ∧
      isArr (JVal.str "") = false ∧
      extractShas (JVal.obj [("tree", JVal.str "")]) = .ok [] :=
  ⟨rfl, rfl, rfl⟩

/-- C4 (amended): if `tree` is absent the operation fails with the
key-lookup error; if `tree` is present but not a sequence the operation
fails — except when the value is an empty string or empty object, which
Python iterates producing no elements, so the script succeeds with the
empty mapping. -/
theorem claim4_schema_failure (data t : JVal) :
    (∀ e, getItem data "tree" = .error e → extractShas data = .error e) ∧
    (getItem data "tree" = .ok t → isArr t = false →
      ((emptyIterLike t = true → extractShas data = .ok []) ∧
        (emptyIterLike t = false → ∃ e, extractShas data = .error e))) := by
  constructor
  · intro e he
    exact extractShas_of_tree_absent he
  · intro ht hna
    cases t with
    | arr xs => simp [isArr] at hna
    | str s =>
      have hrun : extractShas data =
          runLoop [] (s.data.map (fun c => JVal.str (String.mk [c]))) := by
        unfold extractShas
        rw [ht]
        rfl
      constructor
      · intro hempty
        have hnil : s.data = [] := by
          simpa [emptyIterLike, List.isEmpty_iff] using hempty
        rw [hrun, hnil]
        rfl
      · intro hne
        have hnenil : s.data ≠ [] := by
          intro hnil
          rw [show emptyIterLike (JVal.str s) = s.data.isEmpty from rfl,
            hnil] at hne
          simp at hne
        cases hd : s.data with
        | nil => exact absurd hd hnenil
        | cons c cs =>
          rw [hd] at hrun
          exact ⟨.typeError, by rw [hrun]; rfl⟩
    | obj kvs =>
      have hrun : extractShas data =
          runLoop [] (kvs.map (fun kv => JVal.str kv.1)) := by
        unfold extractShas
        rw [ht]
        rfl
      cases kvs with
      | nil =>
        constructor
        · intro _
          rw [hrun]
          rfl
        · intro hne
          simp [emptyIterLike] at hne
      | cons kv rest =>
        constructor
        · intro hempty
          simp [emptyIterLike] at hempty
        · intro _
          exact ⟨.typeError, by rw [hrun]; rfl⟩
    | num n =>
      refine ⟨fun h => absurd h (by simp [emptyIterLike]),
        fun _ => ⟨.typeError, ?_⟩⟩
      unfold extractShas
      rw [ht]
      rfl
    | bool b =>
      refine ⟨fun h => absurd h (by simp [emptyIterLike]),
        fun _ => ⟨.typeError, ?_⟩⟩
      unfold extractShas
      rw [ht]
      rfl
    | null =>
      refine ⟨fun h => absurd h (by simp [emptyIterLike]),
        fun _ => ⟨.typeError, ?_⟩⟩
      unfold extractShas
      rw [ht]
      rfl

theorem claim4_witness :
    extractShas (JVal.obj []) = .error .keyError ∧
      extractShas (JVal.obj [("tree", JVal.obj [])]) = .ok [] :=
  ⟨(claim4_schema_failure (JVal.obj []) JVal.null).1 .keyError rfl,
    ((claim4_schema_failure (JVal.obj [("tree", JVal.obj [])])
      (JVal.obj [])).2 rfl rfl).1 rfl⟩
